import Mathlib

set_option maxRecDepth 40000

/-!
Verification of the Brainfuck chat relay (`bfchatattempt.py`).

The development shallowly embeds the three classes of the source:

* `ImprovedBrainfuckEngine` — the tape machine (`reset`, `load_input`,
  `execute`, `get_output_string`);
* `ImprovedBrainfuckChatProtocol` — `encrypt_message`, `decrypt_message`,
  `validate_message`;
* `ImprovedChatServer` — `disconnect_client`, `broadcast_system_message`,
  `handle_command` (socket effects are recorded in an effect list).

Python `while` loops are rendered as structurally recursive functions on an
explicit fuel argument that is exactly the number of iterations the loop's
own condition permits (for the main interpreter loop: `max_steps - steps`;
for the forward bracket scan: `len(code) - ip`; for the backward scan:
`ip + 1`), so every function evaluates by kernel reduction.
-/

/-- State of the Python class `ImprovedBrainfuckEngine`: a 1000-cell byte
tape, a data pointer, and the input/output byte lists. `input_buffer` is kept
in the same order as the Python list; the read instruction pops its last
element, exactly as `list.pop()` does. -/
structure ImprovedBrainfuckEngine where
  memory : List Nat
  pointer : Nat
  input_buffer : List Nat
  output_buffer : List Nat
deriving DecidableEq

namespace ImprovedBrainfuckEngine

/-- The state built by `ImprovedBrainfuckEngine.reset`: 1000 zeroed cells,
pointer 0, empty buffers.  Python's `reset` overwrites every field, so the
previous state is irrelevant. -/
def resetState : ImprovedBrainfuckEngine :=
  { memory := List.replicate 1000 0, pointer := 0, input_buffer := [], output_buffer := [] }

/-- `reset`: discards the current state (Python reassigns all four fields). -/
def reset (_ : ImprovedBrainfuckEngine) : ImprovedBrainfuckEngine := resetState

/-- `load_input` (string branch): `self.input_buffer = [ord(c) for c in data[::-1]]`. -/
def load_input (st : ImprovedBrainfuckEngine) (data : String) : ImprovedBrainfuckEngine :=
  { st with input_buffer := (data.data.map Char.toNat).reverse }

/-- The forward bracket-depth scan of the `'['` case, one loop iteration per
fuel unit; the fuel is `len(code) - ip`, the exact bound the loop condition
`ip < len(code)` imposes on the number of `ip += 1` iterations. -/
def scanFwdAux (code : List Char) (ip bc : Nat) : Nat → Nat
  | 0 => ip
  | fuel + 1 =>
    if 0 < bc then
      let bc' := if code.getD ip ' ' = '[' then bc + 1
                 else if code.getD ip ' ' = ']' then bc - 1 else bc
      scanFwdAux code (ip + 1) bc' fuel
    else ip

/-- `while ip < len(code) and bracket_count > 0: ... ip += 1` — the scan that
looks for the matching `]`.  Returns the final `ip`. -/
def scanForward (code : List Char) (ip bc : Nat) : Nat :=
  scanFwdAux code ip bc (code.length - ip)

/-- The backward bracket-depth scan of the `']'` case; `ip` is an integer
because Python lets it reach `-1` before the loop condition `ip >= 0` stops
it.  Fuel is `ip + 1`, the exact iteration bound of that condition. -/
def scanBackAux (code : List Char) (ip : Int) (bc : Nat) : Nat → Int
  | 0 => ip
  | fuel + 1 =>
    if 0 < bc then
      let bc' := if code.getD ip.toNat ' ' = ']' then bc + 1
                 else if code.getD ip.toNat ' ' = '[' then bc - 1 else bc
      scanBackAux code (ip - 1) bc' fuel
    else ip

/-- `while ip >= 0 and bracket_count > 0: ... ip -= 1` — the scan that looks
for the matching `[`.  Returns the final `ip` (possibly `-1`). -/
def scanBackward (code : List Char) (ip : Int) (bc : Nat) : Int :=
  scanBackAux code ip bc (ip + 1).toNat

/-- One dispatch of the interpreter's `if/elif` chain at instruction pointer
`ip` (`ip < len code` at every call site).  Returns the updated state and the
value of `ip` after the command body, before the shared `ip += 1`; the result
is an `Int` because the `']'` scan can leave `ip = -1`. -/
def execCmd (code : List Char) (st : ImprovedBrainfuckEngine) (ip : Nat) :
    ImprovedBrainfuckEngine × Int :=
  let cmd := code.getD ip ' '
  if cmd = '>' then
    ({ st with pointer := min (st.pointer + 1) (st.memory.length - 1) }, (ip : Int))
  else if cmd = '<' then
    -- Python `max(self.pointer - 1, 0)`; with a natural-number pointer this is `pointer - 1`.
    ({ st with pointer := st.pointer - 1 }, (ip : Int))
  else if cmd = '+' then
    ({ st with memory := st.memory.set st.pointer ((st.memory.getD st.pointer 0 + 1) % 256) },
      (ip : Int))
  else if cmd = '-' then
    -- Python `(x - 1) % 256` on a cell value `x < 256` equals `(x + 255) % 256`.
    ({ st with memory := st.memory.set st.pointer ((st.memory.getD st.pointer 0 + 255) % 256) },
      (ip : Int))
  else if cmd = '.' then
    ({ st with output_buffer := st.output_buffer ++ [st.memory.getD st.pointer 0] }, (ip : Int))
  else if cmd = ',' then
    if st.input_buffer ≠ [] then
      ({ st with memory := st.memory.set st.pointer (st.input_buffer.getLastD 0),
                 input_buffer := st.input_buffer.dropLast }, (ip : Int))
    else
      ({ st with memory := st.memory.set st.pointer 0 }, (ip : Int))
  else if cmd = '[' then
    if st.memory.getD st.pointer 0 = 0 then
      -- forward scan from ip+1 at depth 1, then the source's `ip -= 1`
      (st, (scanForward code (ip + 1) 1 : Int) - 1)
    else (st, (ip : Int))
  else if cmd = ']' then
    if st.memory.getD st.pointer 0 ≠ 0 then
      (st, scanBackward code ((ip : Int) - 1) 1)
    else (st, (ip : Int))
  else (st, (ip : Int))

/-- The interpreter's main loop `while ip < len(code) and steps < max_steps`.
Fuel is `max_steps - steps` (each iteration does `steps += 1`, so the fuel is
exactly the remaining step budget); the pair returned is the final state and
the final value of `steps`. -/
def runAux (code : List Char) (st : ImprovedBrainfuckEngine) (ip steps : Nat) :
    Nat → ImprovedBrainfuckEngine × Nat
  | 0 => (st, steps)
  | fuel + 1 =>
    if ip < code.length then
      let r := execCmd code st ip
      runAux code r.1 (r.2 + 1).toNat (steps + 1) fuel
    else (st, steps)

/-- `execute(code, max_steps)`: clears the output buffer, runs the main loop
from `ip = 0, steps = 0`, and returns `steps < max_steps` as the success
flag. -/
def execute (st : ImprovedBrainfuckEngine) (code : String) (max_steps : Nat) :
    ImprovedBrainfuckEngine × Bool :=
  let st0 := { st with output_buffer := [] }
  let r := runAux code.data st0 0 0 max_steps
  (r.1, decide (r.2 < max_steps))

/-- `get_output_string`: `''.join(chr(b) for b in self.output_buffer if 0 <= b <= 127)`. -/
def get_output_string (st : ImprovedBrainfuckEngine) : String :=
  String.mk ((st.output_buffer.filter (fun b => decide (b ≤ 127))).map Char.ofNat)

end ImprovedBrainfuckEngine

open ImprovedBrainfuckEngine

/-- One step of the reference trajectory used to state the termination
contract of §4.1: apply the command under the cursor and the shared
`ip += 1`. -/
def stepConfig (code : List Char) (c : ImprovedBrainfuckEngine × Nat) :
    ImprovedBrainfuckEngine × Nat :=
  let r := execCmd code c.1 c.2
  (r.1, (r.2 + 1).toNat)

/-- The reference trajectory: iterate `stepConfig` for `k` steps, freezing as
soon as the instruction cursor has run past the end of the program.  This is
the specification-side description of an execution ("the instruction cursor
runs past the end of the program before `max_steps` instructions have
executed"), independent of any step budget. -/
def iterCmd (code : List Char) : Nat → ImprovedBrainfuckEngine × Nat → ImprovedBrainfuckEngine × Nat
  | 0, c => c
  | k + 1, c => if c.2 < code.length then iterCmd code k (stepConfig code c) else c

/-- Number of instructions the budgeted loop actually executes within `fuel`
steps of the reference trajectory. -/
def nUsed (code : List Char) : Nat → ImprovedBrainfuckEngine × Nat → Nat
  | 0, _ => 0
  | k + 1, c => if c.2 < code.length then nUsed code k (stepConfig code c) + 1 else 0

/-- Helper for `findMatch`, walking the same positions as `scanFwdAux`. -/
def findMatchAux (code : List Char) : Nat → Nat → Nat → Option Nat
  | _, _, 0 => none
  | ip, bc, fuel + 1 =>
    if code.getD ip ' ' = ']' then
      if bc = 1 then some (ip + 1) else findMatchAux code (ip + 1) (bc - 1) fuel
    else if code.getD ip ' ' = '[' then findMatchAux code (ip + 1) (bc + 1) fuel
    else findMatchAux code (ip + 1) bc fuel

/-- Specification-side matching-bracket finder (spec §3: "every `[` has a
matching later `]` at the same nesting depth").  Starting at `ip` with open
depth `bc`, returns the position one past the closing `]` that brings the
depth to zero, or `none` when there is no such bracket before the end of the
program. -/
def findMatch (code : List Char) (ip bc : Nat) : Option Nat :=
  findMatchAux code ip bc (code.length - ip)

namespace ImprovedBrainfuckChatProtocol

/-- `self.encrypt_program = ",[+.,]"` (Caesar +1). -/
def encrypt_program : String := ",[+.,]"

/-- `self.decrypt_program = ",[-.,]"` (Caesar -1). -/
def decrypt_program : String := ",[-.,]"

/-- `encrypt_message`: reset the engine, load the message, run the forward
program with the default step budget 50000; on success return the filtered
output unless it is empty, otherwise (and on failure) return the original
message.  The protocol's engine state is passed explicitly (`self.bf`). -/
def encrypt_message (bf : ImprovedBrainfuckEngine) (message : String) :
    ImprovedBrainfuckEngine × String :=
  let r := ((bf.reset).load_input message).execute encrypt_program 50000
  if r.2 then
    let result := get_output_string r.1
    (r.1, if result = "" then message else result)
  else (r.1, message)

/-- `decrypt_message`: symmetric to `encrypt_message` with the inverse
program. -/
def decrypt_message (bf : ImprovedBrainfuckEngine) (encrypted_message : String) :
    ImprovedBrainfuckEngine × String :=
  let r := ((bf.reset).load_input encrypted_message).execute decrypt_program 50000
  if r.2 then
    let result := get_output_string r.1
    (r.1, if result = "" then encrypted_message else result)
  else (r.1, encrypted_message)

/-- `validate_message`: false when the message is empty or longer than 1000
characters or contains a code point outside `[32, 126]`. -/
def validate_message (message : String) : Bool :=
  if message.data = [] ∨ message.length > 1000 then false
  else message.data.all fun char => !(decide (char.toNat < 32) || decide (126 < char.toNat))

end ImprovedBrainfuckChatProtocol

open ImprovedBrainfuckChatProtocol

/-- One entry of `self.clients` in `ImprovedChatServer`: the connection
handle (an opaque identifier standing for the Python socket object), the
remote address, the join time and the liveness flag. -/
structure ClientInfo where
  sock : Nat
  address : String
  connected_at : Nat
  active : Bool
deriving DecidableEq

/-- `self.clients`, a Python dict in insertion order: an association list
from client identifier to `ClientInfo` (dict keys are unique). -/
abbrev Registry := List (String × ClientInfo)

/-- An observable socket action performed by the server: closing a
connection handle or sending a text payload over one. -/
inductive Effect where
  | closeSock (s : Nat)
  | send (s : Nat) (msg : String)
deriving DecidableEq

/-- `self.clients.get(client_id)`. -/
def lookupClient (clients : Registry) (client_id : String) : Option ClientInfo :=
  (clients.find? fun p => decide (p.1 = client_id)).map (·.2)

/-- The departure notice broadcast by `disconnect_client`. -/
def departNotice (client_id : String) : String := "📤 " ++ client_id ++ " left the chat"

/-- The registry operations that can be in flight: `disconnect_client`,
`broadcast_system_message`, and the removal loop that the broadcast runs
over the clients its sends failed for. -/
inductive RegOp where
  | disc (st : Registry) (client_id : String)
  | bcast (st : Registry) (message : String) (exclude : Option String)
  | discAll (st : Registry) (ids : List String)

/-- The registry of a pending operation. -/
def RegOp.state : RegOp → Registry
  | .disc st _ => st
  | .bcast st _ _ => st
  | .discAll st _ => st

/-- Outcome of running a registry operation in the sequential model with
the server lock represented.  `self.lock` is a non-reentrant
`threading.Lock`: acquiring it while it is already held blocks the
acquiring thread forever.  `ok` means the call returned; `deadlock` means
the thread blocked forever on a lock acquisition, with the registry
contents and the socket effects already produced at the moment of
blocking (mutations made before the block persist and stay visible). -/
inductive LockResult where
  | ok (st : Registry) (effs : List Effect)
  | deadlock (st : Registry) (effs : List Effect)
deriving DecidableEq

/-- Executor for `disconnect_client` / `broadcast_system_message` in the
sequential model.  `locked` says whether `self.lock` is already held when
the operation starts — held by an enclosing call of the same thread, or
left permanently held by an earlier call that deadlocked (a deadlocked
holder never releases).  `sendOk` tells which connection handles accept a
send — a failed send raises in Python and marks that client for removal
after the iteration.

* `.disc`: `disconnect_client` first enters `with self.lock:` (line 318);
  if the lock is held this blocks forever, producing nothing.  Otherwise
  an absent id is a no-op (the with-block exits, releasing the lock); a
  present id is marked inactive, its handle closed (close errors
  swallowed, so the close is one effect regardless), its entry deleted,
  and then — still inside the with-block, the lock held — the departure
  broadcast of line 333 is invoked.
* `.bcast`: `broadcast_system_message` enters `with self.lock:`
  (line 288), blocking forever when the lock is already held.  Otherwise
  it sends to every active client other than the excluded one, collects
  the clients whose send failed and, still under the lock, disconnects
  those.
* `.discAll`: the `for client_id in clients_to_remove` loop, run with the
  caller's lock state; a deadlock inside it stops the thread, so the
  remaining iterations never run.

Fuel bounds the nesting of calls; every reachable chain deadlocks or
returns within depth 3, so the `clients.length + 3` the wrapper passes is
ample, and the fuel-0 branch is unreachable from it. -/
def regRun (sendOk : Nat → Bool) : Nat → Bool → RegOp → LockResult
  | 0, _, op => .deadlock op.state []
  | fuel + 1, locked, .disc st client_id =>
    if locked then .deadlock st []
    else
      match lookupClient st client_id with
      | none => .ok st []
      | some info =>
        let st1 := st.eraseP fun p => decide (p.1 = client_id)
        match regRun sendOk fuel true (.bcast st1 (departNotice client_id) (some client_id)) with
        | .ok st2 effs => .ok st2 (Effect.closeSock info.sock :: effs)
        | .deadlock st2 effs => .deadlock st2 (Effect.closeSock info.sock :: effs)
  | fuel + 1, locked, .bcast st message exclude =>
    if locked then .deadlock st []
    else
      let targets := st.filter fun p => decide (some p.1 ≠ exclude) && p.2.active
      let sendEffs := targets.filterMap fun p =>
        if sendOk p.2.sock then some (Effect.send p.2.sock message) else none
      let failed := (targets.filter fun p => !sendOk p.2.sock).map (·.1)
      match regRun sendOk fuel true (.discAll st failed) with
      | .ok st2 effs => .ok st2 (sendEffs ++ effs)
      | .deadlock st2 effs => .deadlock st2 (sendEffs ++ effs)
  | _ + 1, _, .discAll st [] => .ok st []
  | fuel + 1, locked, .discAll st (c :: cs) =>
    match regRun sendOk fuel locked (.disc st c) with
    | .deadlock st1 e1 => .deadlock st1 e1
    | .ok st1 e1 =>
      match regRun sendOk fuel locked (.discAll st1 cs) with
      | .ok st2 e2 => .ok st2 (e1 ++ e2)
      | .deadlock st2 e2 => .deadlock st2 (e1 ++ e2)

/-- `disconnect_client(client_id)` in the lock-aware sequential model;
`lockHeld` is the state of `self.lock` when the call is made. -/
def disconnect_client (sendOk : Nat → Bool) (lockHeld : Bool) (clients : Registry)
    (client_id : String) : LockResult :=
  regRun sendOk (clients.length + 3) lockHeld (.disc clients client_id)

/-- The static `/help` reply text. -/
def helpText : String :=
  "🔰 Available Commands:\n/users - Show connected users\n/time - Show server time\n/bf <code> - Execute Brainfuck code\n/help - Show this help\n/quit - Disconnect from chat"

/-- `handle_command(client_id, command)`.  The wall-clock read of `/time` is
passed in as `now`; every reply goes through `send_to_client(client_id, …)`
and is recorded as a `(target, message)` pair.  The `/bf` branch runs the
caller-supplied program on the protocol's engine against the canned input
`"Hello!"` with step budget 5000. -/
def handle_command (bf : ImprovedBrainfuckEngine) (clients : Registry) (now client_id command : String) :
    ImprovedBrainfuckEngine × List (String × String) :=
  if command = "/users" then
    (bf, [(client_id, "👥 Connected users: " ++ String.intercalate ", " (clients.map (·.1)))])
  else if command = "/time" then
    (bf, [(client_id, "🕐 Server time: " ++ now)])
  else if "/bf ".data.isPrefixOf command.data then
    let bf_code := String.mk (command.data.drop 4)
    let r := ((bf.reset).load_input "Hello!").execute bf_code 5000
    let response :=
      if r.2 then "🧠 BF Output: '" ++ get_output_string r.1 ++ "'"
      else "❌ BF Error: Program failed or exceeded step limit"
    (r.1, [(client_id, response)])
  else if command = "/help" then (bf, [(client_id, helpText)])
  else (bf, [(client_id, "❓ Unknown command. Type /help for available commands.")])


namespace ImprovedBrainfuckEngine

theorem runAux_zero (code : List Char) (st : ImprovedBrainfuckEngine) (ip steps : Nat) :
    runAux code st ip steps 0 = (st, steps) := rfl

theorem runAux_succ (code : List Char) (st : ImprovedBrainfuckEngine) (ip steps fuel : Nat)
    (h : ip < code.length) :
    runAux code st ip steps (fuel + 1) =
      runAux code (execCmd code st ip).1 ((execCmd code st ip).2 + 1).toNat (steps + 1) fuel := by
  simp [runAux, h]

theorem runAux_halt (code : List Char) (st : ImprovedBrainfuckEngine) (ip steps fuel : Nat)
    (h : ¬ ip < code.length) :
    runAux code st ip steps fuel = (st, steps) := by
  cases fuel <;> simp [runAux, h]

/-- Extra budget beyond an execution that halted early is never consumed. -/
theorem runAux_fuel_ext (code : List Char) :
    ∀ (f : Nat) (st : ImprovedBrainfuckEngine) (ip steps g : Nat),
      (runAux code st ip steps f).2 < steps + f → f ≤ g →
      runAux code st ip steps g = runAux code st ip steps f := by
  intro f
  induction f with
  | zero => intro st ip steps g h _; simp [runAux_zero] at h
  | succ f ih =>
    intro st ip steps g h hfg
    by_cases hip : ip < code.length
    · obtain ⟨g', rfl⟩ : ∃ g', g = g' + 1 := ⟨g - 1, by omega⟩
      rw [runAux_succ code st ip steps f hip] at h ⊢
      rw [runAux_succ code st ip steps g' hip]
      exact ih _ _ _ _ (by omega) (by omega)
    · rw [runAux_halt code st ip steps _ hip, runAux_halt code st ip steps _ hip]

/-- A run that consumed its whole budget consumes all of any smaller budget. -/
theorem runAux_fuel_trunc (code : List Char) :
    ∀ (g : Nat) (st : ImprovedBrainfuckEngine) (ip steps f : Nat),
      g ≤ f → (runAux code st ip steps f).2 = steps + f →
      (runAux code st ip steps g).2 = steps + g := by
  intro g
  induction g with
  | zero => intro st ip steps f _ _; simp [runAux_zero]
  | succ g ih =>
    intro st ip steps f hgf h
    obtain ⟨f', rfl⟩ : ∃ f', f = f' + 1 := ⟨f - 1, by omega⟩
    by_cases hip : ip < code.length
    · rw [runAux_succ code st ip steps f' hip] at h
      rw [runAux_succ code st ip steps g hip]
      have := ih (execCmd code st ip).1 ((execCmd code st ip).2 + 1).toNat (steps + 1) f'
        (by omega) (by omega)
      omega
    · rw [runAux_halt code st ip steps _ hip] at h
      omega

end ImprovedBrainfuckEngine

theorem getD_set_zero (mem : List Nat) (x : Nat) (h : 0 < mem.length) :
    (mem.set 0 x).getD 0 0 = x := by
  cases mem with
  | nil => simp at h
  | cons a l => rfl

theorem runAux_step_plus (code : List Char) (mem : List Nat) (p : Nat) (i out : List Nat)
    (ip steps fuel : Nat) (hip : ip < code.length) (hch : code.getD ip ' ' = '+') :
    runAux code ⟨mem, p, i, out⟩ ip steps (fuel + 1) =
      runAux code ⟨mem.set p ((mem.getD p 0 + 1) % 256), p, i, out⟩ (ip + 1) (steps + 1) fuel := by
  have hc := hch; simp at hc
  have hexec : execCmd code ⟨mem, p, i, out⟩ ip =
      (⟨mem.set p ((mem.getD p 0 + 1) % 256), p, i, out⟩, (ip : Int)) := by
    simp +decide [execCmd, hc]
  rw [runAux_succ code _ ip steps fuel hip, hexec]
  have ht : ((ip : Int) + 1).toNat = ip + 1 := by omega
  rw [ht]

theorem runAux_step_minus (code : List Char) (mem : List Nat) (p : Nat) (i out : List Nat)
    (ip steps fuel : Nat) (hip : ip < code.length) (hch : code.getD ip ' ' = '-') :
    runAux code ⟨mem, p, i, out⟩ ip steps (fuel + 1) =
      runAux code ⟨mem.set p ((mem.getD p 0 + 255) % 256), p, i, out⟩ (ip + 1) (steps + 1) fuel := by
  have hc := hch; simp at hc
  have hexec : execCmd code ⟨mem, p, i, out⟩ ip =
      (⟨mem.set p ((mem.getD p 0 + 255) % 256), p, i, out⟩, (ip : Int)) := by
    simp +decide [execCmd, hc]
  rw [runAux_succ code _ ip steps fuel hip, hexec]
  have ht : ((ip : Int) + 1).toNat = ip + 1 := by omega
  rw [ht]

theorem runAux_step_dot (code : List Char) (mem : List Nat) (p : Nat) (i out : List Nat)
    (ip steps fuel : Nat) (hip : ip < code.length) (hch : code.getD ip ' ' = '.') :
    runAux code ⟨mem, p, i, out⟩ ip steps (fuel + 1) =
      runAux code ⟨mem, p, i, out ++ [mem.getD p 0]⟩ (ip + 1) (steps + 1) fuel := by
  have hc := hch; simp at hc
  have hexec : execCmd code ⟨mem, p, i, out⟩ ip =
      (⟨mem, p, i, out ++ [mem.getD p 0]⟩, (ip : Int)) := by
    simp +decide [execCmd, hc]
  rw [runAux_succ code _ ip steps fuel hip, hexec]
  have ht : ((ip : Int) + 1).toNat = ip + 1 := by omega
  rw [ht]

theorem runAux_step_comma_pop (code : List Char) (mem : List Nat) (p : Nat) (i out : List Nat)
    (ip steps fuel : Nat) (hip : ip < code.length) (hch : code.getD ip ' ' = ',')
    (hne : i ≠ []) :
    runAux code ⟨mem, p, i, out⟩ ip steps (fuel + 1) =
      runAux code ⟨mem.set p (i.getLastD 0), p, i.dropLast, out⟩ (ip + 1) (steps + 1) fuel := by
  have hc := hch; simp at hc
  have hexec : execCmd code ⟨mem, p, i, out⟩ ip =
      (⟨mem.set p (i.getLastD 0), p, i.dropLast, out⟩, (ip : Int)) := by
    simp +decide [execCmd, hc, hne]
  rw [runAux_succ code _ ip steps fuel hip, hexec]
  have ht : ((ip : Int) + 1).toNat = ip + 1 := by omega
  rw [ht]

theorem runAux_step_comma_zero (code : List Char) (mem : List Nat) (p : Nat) (out : List Nat)
    (ip steps fuel : Nat) (hip : ip < code.length) (hch : code.getD ip ' ' = ',') :
    runAux code ⟨mem, p, [], out⟩ ip steps (fuel + 1) =
      runAux code ⟨mem.set p 0, p, [], out⟩ (ip + 1) (steps + 1) fuel := by
  have hc := hch; simp at hc
  have hexec : execCmd code ⟨mem, p, [], out⟩ ip =
      (⟨mem.set p 0, p, [], out⟩, (ip : Int)) := by
    simp +decide [execCmd, hc]
  rw [runAux_succ code _ ip steps fuel hip, hexec]
  have ht : ((ip : Int) + 1).toNat = ip + 1 := by omega
  rw [ht]

theorem runAux_step_lbracket_fall (code : List Char) (mem : List Nat) (p : Nat)
    (i out : List Nat) (ip steps fuel : Nat) (hip : ip < code.length)
    (hch : code.getD ip ' ' = '[') (hcell : mem.getD p 0 ≠ 0) :
    runAux code ⟨mem, p, i, out⟩ ip steps (fuel + 1) =
      runAux code ⟨mem, p, i, out⟩ (ip + 1) (steps + 1) fuel := by
  have hc := hch; simp at hc
  have hcell' := hcell; simp at hcell'
  have hexec : execCmd code ⟨mem, p, i, out⟩ ip = (⟨mem, p, i, out⟩, (ip : Int)) := by
    simp +decide [execCmd, hc, hcell']
  rw [runAux_succ code _ ip steps fuel hip, hexec]
  have ht : ((ip : Int) + 1).toNat = ip + 1 := by omega
  rw [ht]

theorem runAux_step_lbracket_jump (code : List Char) (mem : List Nat) (p : Nat)
    (i out : List Nat) (ip steps fuel : Nat) (hip : ip < code.length)
    (hch : code.getD ip ' ' = '[') (hcell : mem.getD p 0 = 0) :
    runAux code ⟨mem, p, i, out⟩ ip steps (fuel + 1) =
      runAux code ⟨mem, p, i, out⟩ (scanForward code (ip + 1) 1) (steps + 1) fuel := by
  have hc := hch; simp at hc
  have hcell' := hcell; simp at hcell'
  have hexec : execCmd code ⟨mem, p, i, out⟩ ip =
      (⟨mem, p, i, out⟩, (scanForward code (ip + 1) 1 : Int) - 1) := by
    simp +decide [execCmd, hc, hcell']
  rw [runAux_succ code _ ip steps fuel hip, hexec]
  have ht : (((scanForward code (ip + 1) 1 : Int) - 1) + 1).toNat =
      scanForward code (ip + 1) 1 := by omega
  rw [ht]

theorem runAux_step_rbracket_fall (code : List Char) (mem : List Nat) (p : Nat)
    (i out : List Nat) (ip steps fuel : Nat) (hip : ip < code.length)
    (hch : code.getD ip ' ' = ']') (hcell : mem.getD p 0 = 0) :
    runAux code ⟨mem, p, i, out⟩ ip steps (fuel + 1) =
      runAux code ⟨mem, p, i, out⟩ (ip + 1) (steps + 1) fuel := by
  have hc := hch; simp at hc
  have hcell' := hcell; simp at hcell'
  have hexec : execCmd code ⟨mem, p, i, out⟩ ip = (⟨mem, p, i, out⟩, (ip : Int)) := by
    simp +decide [execCmd, hc, hcell']
  rw [runAux_succ code _ ip steps fuel hip, hexec]
  have ht : ((ip : Int) + 1).toNat = ip + 1 := by omega
  rw [ht]

theorem runAux_step_rbracket_jump (code : List Char) (mem : List Nat) (p : Nat)
    (i out : List Nat) (ip steps fuel : Nat) (hip : ip < code.length)
    (hch : code.getD ip ' ' = ']') (hcell : mem.getD p 0 ≠ 0) (j : Nat)
    (hj : (scanBackward code ((ip : Int) - 1) 1 + 1).toNat = j) :
    runAux code ⟨mem, p, i, out⟩ ip steps (fuel + 1) =
      runAux code ⟨mem, p, i, out⟩ j (steps + 1) fuel := by
  have hc := hch; simp at hc
  have hcell' := hcell; simp at hcell'
  have hexec : execCmd code ⟨mem, p, i, out⟩ ip =
      (⟨mem, p, i, out⟩, scanBackward code ((ip : Int) - 1) 1) := by
    simp +decide [execCmd, hc, hcell']
  rw [runAux_succ code _ ip steps fuel hip, hexec, hj]

/-- One pass of the `,[+.,]` loop per input byte: at the `[` with current
cell `c ∈ [1,126]` and remaining bytes `r ⊆ [1,126]` queued, the machine
emits `c+1` followed by the shifted remaining bytes and halts, in exactly
`5·|r| + 5` further steps. -/
theorem encLoop :
    ∀ (r : List Nat) (c : Nat) (mem out : List Nat) (steps fuel : Nat),
      0 < mem.length → mem.getD 0 0 = c → 1 ≤ c → c ≤ 126 →
      (∀ b ∈ r, 1 ≤ b ∧ b ≤ 126) → 5 * r.length + 5 ≤ fuel →
      ∃ mem', runAux encrypt_program.data ⟨mem, 0, r.reverse, out⟩ 1 steps fuel =
        (⟨mem', 0, [], out ++ (c + 1) :: r.map (· + 1)⟩, steps + (5 * r.length + 5)) := by
  intro r
  induction r with
  | nil =>
    intro c mem out steps fuel hm hc hc1 hc2 _ hf
    obtain ⟨f, rfl⟩ : ∃ f, fuel = f + 5 := ⟨fuel - 5, by omega⟩
    rw [show ([] : List Nat).reverse = [] from rfl]
    rw [runAux_step_lbracket_fall encrypt_program.data mem 0 [] out 1 steps (f + 4)
      (by decide) (by decide) (by rw [hc]; omega)]
    rw [runAux_step_plus encrypt_program.data mem 0 [] out 2 (steps + 1) (f + 3)
      (by decide) (by decide)]
    rw [hc, show (c + 1) % 256 = c + 1 from Nat.mod_eq_of_lt (by omega)]
    rw [runAux_step_dot encrypt_program.data (mem.set 0 (c + 1)) 0 [] out 3 (steps + 1 + 1)
      (f + 2) (by decide) (by decide)]
    rw [getD_set_zero mem (c + 1) hm]
    rw [runAux_step_comma_zero encrypt_program.data (mem.set 0 (c + 1)) 0 (out ++ [c + 1]) 4
      (steps + 1 + 1 + 1) (f + 1) (by decide) (by decide)]
    rw [List.set_set]
    rw [runAux_step_rbracket_fall encrypt_program.data (mem.set 0 0) 0 [] (out ++ [c + 1]) 5
      (steps + 1 + 1 + 1 + 1) f (by decide) (by decide) (getD_set_zero mem 0 hm)]
    rw [runAux_halt encrypt_program.data _ 6 (steps + 1 + 1 + 1 + 1 + 1) f (by decide)]
    refine ⟨mem.set 0 0, ?_⟩
    simp
  | cons b rest ih =>
    intro c mem out steps fuel hm hc hc1 hc2 hr hf
    obtain ⟨f, rfl⟩ : ∃ f, fuel = f + 5 := ⟨fuel - 5, by omega⟩
    have hb : 1 ≤ b ∧ b ≤ 126 := hr b (by simp)
    have hrest : ∀ x ∈ rest, 1 ≤ x ∧ x ≤ 126 := fun x hx => hr x (by simp [hx])
    rw [List.reverse_cons]
    rw [runAux_step_lbracket_fall encrypt_program.data mem 0 (rest.reverse ++ [b]) out 1 steps
      (f + 4) (by decide) (by decide) (by rw [hc]; omega)]
    rw [runAux_step_plus encrypt_program.data mem 0 (rest.reverse ++ [b]) out 2 (steps + 1)
      (f + 3) (by decide) (by decide)]
    rw [hc, show (c + 1) % 256 = c + 1 from Nat.mod_eq_of_lt (by omega)]
    rw [runAux_step_dot encrypt_program.data (mem.set 0 (c + 1)) 0 (rest.reverse ++ [b]) out 3
      (steps + 1 + 1) (f + 2) (by decide) (by decide)]
    rw [getD_set_zero mem (c + 1) hm]
    rw [runAux_step_comma_pop encrypt_program.data (mem.set 0 (c + 1)) 0 (rest.reverse ++ [b])
      (out ++ [c + 1]) 4 (steps + 1 + 1 + 1) (f + 1) (by decide) (by decide) (by simp)]
    rw [show (rest.reverse ++ [b]).getLastD 0 = b by simp, List.dropLast_concat, List.set_set]
    rw [runAux_step_rbracket_jump encrypt_program.data (mem.set 0 b) 0 rest.reverse
      (out ++ [c + 1]) 5 (steps + 1 + 1 + 1 + 1) f (by decide) (by decide)
      (by rw [getD_set_zero mem b hm]; omega) 1 (by decide)]
    obtain ⟨mem', hm'⟩ := ih b (mem.set 0 b) (out ++ [c + 1]) (steps + 1 + 1 + 1 + 1 + 1) f
      (by rw [List.length_set]; exact hm) (getD_set_zero mem b hm) hb.1 hb.2 hrest
      (by simp only [List.length_cons] at hf; omega)
    refine ⟨mem', ?_⟩
    rw [hm']
    simp
    omega

/-- One pass of the `,[-.,]` loop per input byte: at the `[` with current
cell `c ∈ [1,127]` and remaining bytes `r ⊆ [1,127]` queued, the machine
emits `c-1` followed by the down-shifted remaining bytes and halts, in
exactly `5·|r| + 5` further steps. -/
theorem decLoop :
    ∀ (r : List Nat) (c : Nat) (mem out : List Nat) (steps fuel : Nat),
      0 < mem.length → mem.getD 0 0 = c → 1 ≤ c → c ≤ 127 →
      (∀ b ∈ r, 1 ≤ b ∧ b ≤ 127) → 5 * r.length + 5 ≤ fuel →
      ∃ mem', runAux decrypt_program.data ⟨mem, 0, r.reverse, out⟩ 1 steps fuel =
        (⟨mem', 0, [], out ++ (c - 1) :: r.map (· - 1)⟩, steps + (5 * r.length + 5)) := by
  intro r
  induction r with
  | nil =>
    intro c mem out steps fuel hm hc hc1 hc2 _ hf
    obtain ⟨f, rfl⟩ : ∃ f, fuel = f + 5 := ⟨fuel - 5, by omega⟩
    rw [show ([] : List Nat).reverse = [] from rfl]
    rw [runAux_step_lbracket_fall decrypt_program.data mem 0 [] out 1 steps (f + 4)
      (by decide) (by decide) (by rw [hc]; omega)]
    rw [runAux_step_minus decrypt_program.data mem 0 [] out 2 (steps + 1) (f + 3)
      (by decide) (by decide)]
    rw [hc, show (c + 255) % 256 = c - 1 from by omega]
    rw [runAux_step_dot decrypt_program.data (mem.set 0 (c - 1)) 0 [] out 3 (steps + 1 + 1)
      (f + 2) (by decide) (by decide)]
    rw [getD_set_zero mem (c - 1) hm]
    rw [runAux_step_comma_zero decrypt_program.data (mem.set 0 (c - 1)) 0 (out ++ [c - 1]) 4
      (steps + 1 + 1 + 1) (f + 1) (by decide) (by decide)]
    rw [List.set_set]
    rw [runAux_step_rbracket_fall decrypt_program.data (mem.set 0 0) 0 [] (out ++ [c - 1]) 5
      (steps + 1 + 1 + 1 + 1) f (by decide) (by decide) (getD_set_zero mem 0 hm)]
    rw [runAux_halt decrypt_program.data _ 6 (steps + 1 + 1 + 1 + 1 + 1) f (by decide)]
    refine ⟨mem.set 0 0, ?_⟩
    simp
  | cons b rest ih =>
    intro c mem out steps fuel hm hc hc1 hc2 hr hf
    obtain ⟨f, rfl⟩ : ∃ f, fuel = f + 5 := ⟨fuel - 5, by omega⟩
    have hb : 1 ≤ b ∧ b ≤ 127 := hr b (by simp)
    have hrest : ∀ x ∈ rest, 1 ≤ x ∧ x ≤ 127 := fun x hx => hr x (by simp [hx])
    rw [List.reverse_cons]
    rw [runAux_step_lbracket_fall decrypt_program.data mem 0 (rest.reverse ++ [b]) out 1 steps
      (f + 4) (by decide) (by decide) (by rw [hc]; omega)]
    rw [runAux_step_minus decrypt_program.data mem 0 (rest.reverse ++ [b]) out 2 (steps + 1)
      (f + 3) (by decide) (by decide)]
    rw [hc, show (c + 255) % 256 = c - 1 from by omega]
    rw [runAux_step_dot decrypt_program.data (mem.set 0 (c - 1)) 0 (rest.reverse ++ [b]) out 3
      (steps + 1 + 1) (f + 2) (by decide) (by decide)]
    rw [getD_set_zero mem (c - 1) hm]
    rw [runAux_step_comma_pop decrypt_program.data (mem.set 0 (c - 1)) 0 (rest.reverse ++ [b])
      (out ++ [c - 1]) 4 (steps + 1 + 1 + 1) (f + 1) (by decide) (by decide) (by simp)]
    rw [show (rest.reverse ++ [b]).getLastD 0 = b by simp, List.dropLast_concat, List.set_set]
    rw [runAux_step_rbracket_jump decrypt_program.data (mem.set 0 b) 0 rest.reverse
      (out ++ [c - 1]) 5 (steps + 1 + 1 + 1 + 1) f (by decide) (by decide)
      (by rw [getD_set_zero mem b hm]; omega) 1 (by decide)]
    obtain ⟨mem', hm'⟩ := ih b (mem.set 0 b) (out ++ [c - 1]) (steps + 1 + 1 + 1 + 1 + 1) f
      (by rw [List.length_set]; exact hm) (getD_set_zero mem b hm) hb.1 hb.2 hrest
      (by simp only [List.length_cons] at hf; omega)
    refine ⟨mem', ?_⟩
    rw [hm']
    simp
    omega

/-- A full `,[+.,]` run over a non-empty byte list in `[1,126]` halts after
exactly `5·n + 1` steps with the up-shifted bytes as output. -/
theorem encRun (bs : List Nat) (hne : bs ≠ []) (hb : ∀ b ∈ bs, 1 ≤ b ∧ b ≤ 126)
    (fuel : Nat) (hf : 5 * bs.length + 1 ≤ fuel) :
    ∃ mem', runAux encrypt_program.data ⟨List.replicate 1000 0, 0, bs.reverse, []⟩ 0 0 fuel =
      (⟨mem', 0, [], bs.map (· + 1)⟩, 5 * bs.length + 1) := by
  match bs, hne with
  | b :: rest, _ =>
    obtain ⟨f, rfl⟩ : ∃ f, fuel = f + 1 := ⟨fuel - 1, by omega⟩
    rw [List.reverse_cons]
    rw [runAux_step_comma_pop encrypt_program.data (List.replicate 1000 0) 0
      (rest.reverse ++ [b]) [] 0 0 f (by decide) (by decide) (by simp)]
    rw [show (rest.reverse ++ [b]).getLastD 0 = b by simp, List.dropLast_concat]
    obtain ⟨mem', hm'⟩ := encLoop rest b ((List.replicate 1000 0).set 0 b) [] (0 + 1) f
      (by simp) (getD_set_zero _ b (by simp)) (hb b (by simp)).1 (hb b (by simp)).2
      (fun x hx => hb x (by simp [hx])) (by simp only [List.length_cons] at hf; omega)
    refine ⟨mem', ?_⟩
    rw [hm']
    simp
    omega

/-- A full `,[-.,]` run over a non-empty byte list in `[1,127]` halts after
exactly `5·n + 1` steps with the down-shifted bytes as output. -/
theorem decRun (bs : List Nat) (hne : bs ≠ []) (hb : ∀ b ∈ bs, 1 ≤ b ∧ b ≤ 127)
    (fuel : Nat) (hf : 5 * bs.length + 1 ≤ fuel) :
    ∃ mem', runAux decrypt_program.data ⟨List.replicate 1000 0, 0, bs.reverse, []⟩ 0 0 fuel =
      (⟨mem', 0, [], bs.map (· - 1)⟩, 5 * bs.length + 1) := by
  match bs, hne with
  | b :: rest, _ =>
    obtain ⟨f, rfl⟩ : ∃ f, fuel = f + 1 := ⟨fuel - 1, by omega⟩
    rw [List.reverse_cons]
    rw [runAux_step_comma_pop decrypt_program.data (List.replicate 1000 0) 0
      (rest.reverse ++ [b]) [] 0 0 f (by decide) (by decide) (by simp)]
    rw [show (rest.reverse ++ [b]).getLastD 0 = b by simp, List.dropLast_concat]
    obtain ⟨mem', hm'⟩ := decLoop rest b ((List.replicate 1000 0).set 0 b) [] (0 + 1) f
      (by simp) (getD_set_zero _ b (by simp)) (hb b (by simp)).1 (hb b (by simp)).2
      (fun x hx => hb x (by simp [hx])) (by simp only [List.length_cons] at hf; omega)
    refine ⟨mem', ?_⟩
    rw [hm']
    simp
    omega

/-- How `encrypt_message` reads off an `execute` result. -/
theorem encrypt_message_eq_of_execute (bf : ImprovedBrainfuckEngine) (message : String)
    (s0 : ImprovedBrainfuckEngine) (ok : Bool)
    (hr : (bf.reset.load_input message).execute encrypt_program 50000 = (s0, ok)) :
    (encrypt_message bf message).2 =
      if ok then (if get_output_string s0 = "" then message else get_output_string s0)
      else message := by
  unfold encrypt_message
  rw [hr]
  cases ok <;> simp

/-- How `decrypt_message` reads off an `execute` result. -/
theorem decrypt_message_eq_of_execute (bf : ImprovedBrainfuckEngine) (message : String)
    (s0 : ImprovedBrainfuckEngine) (ok : Bool)
    (hr : (bf.reset.load_input message).execute decrypt_program 50000 = (s0, ok)) :
    (decrypt_message bf message).2 =
      if ok then (if get_output_string s0 = "" then message else get_output_string s0)
      else message := by
  unfold decrypt_message
  rw [hr]
  cases ok <;> simp

theorem toNat_ofNat_of_le (n : Nat) (h : n ≤ 127) : (Char.ofNat n).toNat = n := by
  have hv : n.isValidChar := Or.inl (by omega)
  simp [Char.ofNat, hv]
  rfl

/-- `encrypt_message` on a short message of code points in `[1,126]`
returns the Caesar +1 shift of the message. -/
theorem encrypt_message_of_bytes (bf : ImprovedBrainfuckEngine) (s : String)
    (h : ∀ c ∈ s.data, 1 ≤ c.toNat ∧ c.toNat ≤ 126) (hne : s.data ≠ [])
    (hlen : s.data.length ≤ 9999) :
    (encrypt_message bf s).2 = String.mk (s.data.map fun ch => Char.ofNat (ch.toNat + 1)) := by
  have hbs_ne : s.data.map Char.toNat ≠ [] := by simpa using hne
  have hbs_rng : ∀ b ∈ s.data.map Char.toNat, 1 ≤ b ∧ b ≤ 126 := by
    intro b hb
    obtain ⟨c, hc, rfl⟩ := List.mem_map.mp hb
    exact h c hc
  have hbs_len : (s.data.map Char.toNat).length = s.data.length := by simp
  obtain ⟨mem', hrun⟩ := encRun (s.data.map Char.toNat) hbs_ne hbs_rng 50000 (by omega)
  have hexec : (bf.reset.load_input s).execute encrypt_program 50000 =
      (⟨mem', 0, [], (s.data.map Char.toNat).map (· + 1)⟩, true) := by
    show ((runAux encrypt_program.data
        ⟨List.replicate 1000 0, 0, (s.data.map Char.toNat).reverse, []⟩ 0 0 50000).1,
      decide ((runAux encrypt_program.data
        ⟨List.replicate 1000 0, 0, (s.data.map Char.toNat).reverse, []⟩ 0 0 50000).2 < 50000)) = _
    rw [hrun]
    have hlt : 5 * (s.data.map Char.toNat).length + 1 < 50000 := by rw [hbs_len]; omega
    rw [decide_eq_true hlt]
  rw [encrypt_message_eq_of_execute bf s _ _ hexec]
  have hout : get_output_string ⟨mem', 0, [], (s.data.map Char.toNat).map (· + 1)⟩ =
      String.mk (s.data.map fun ch => Char.ofNat (ch.toNat + 1)) := by
    unfold get_output_string
    rw [List.filter_eq_self.mpr ?_]
    · simp only [List.map_map]
      rfl
    · intro b hb
      obtain ⟨x, hx, rfl⟩ := List.mem_map.mp hb
      obtain ⟨c, hc, rfl⟩ := List.mem_map.mp hx
      have := (h c hc).2
      simp
      omega
  rw [if_pos rfl, hout, if_neg ?_]
  intro hcon
  have := congrArg String.data hcon
  simp at this
  exact hne this

/-- `decrypt_message` on a short message of code points in `[1,127]`
returns the Caesar −1 shift of the message. -/
theorem decrypt_message_of_bytes (bf : ImprovedBrainfuckEngine) (s : String)
    (h : ∀ c ∈ s.data, 1 ≤ c.toNat ∧ c.toNat ≤ 127) (hne : s.data ≠ [])
    (hlen : s.data.length ≤ 9999) :
    (decrypt_message bf s).2 = String.mk (s.data.map fun ch => Char.ofNat (ch.toNat - 1)) := by
  have hbs_ne : s.data.map Char.toNat ≠ [] := by simpa using hne
  have hbs_rng : ∀ b ∈ s.data.map Char.toNat, 1 ≤ b ∧ b ≤ 127 := by
    intro b hb
    obtain ⟨c, hc, rfl⟩ := List.mem_map.mp hb
    exact h c hc
  have hbs_len : (s.data.map Char.toNat).length = s.data.length := by simp
  obtain ⟨mem', hrun⟩ := decRun (s.data.map Char.toNat) hbs_ne hbs_rng 50000 (by omega)
  have hexec : (bf.reset.load_input s).execute decrypt_program 50000 =
      (⟨mem', 0, [], (s.data.map Char.toNat).map (· - 1)⟩, true) := by
    show ((runAux decrypt_program.data
        ⟨List.replicate 1000 0, 0, (s.data.map Char.toNat).reverse, []⟩ 0 0 50000).1,
      decide ((runAux decrypt_program.data
        ⟨List.replicate 1000 0, 0, (s.data.map Char.toNat).reverse, []⟩ 0 0 50000).2 < 50000)) = _
    rw [hrun]
    have hlt : 5 * (s.data.map Char.toNat).length + 1 < 50000 := by rw [hbs_len]; omega
    rw [decide_eq_true hlt]
  rw [decrypt_message_eq_of_execute bf s _ _ hexec]
  have hout : get_output_string ⟨mem', 0, [], (s.data.map Char.toNat).map (· - 1)⟩ =
      String.mk (s.data.map fun ch => Char.ofNat (ch.toNat - 1)) := by
    unfold get_output_string
    rw [List.filter_eq_self.mpr ?_]
    · simp only [List.map_map]
      rfl
    · intro b hb
      obtain ⟨x, hx, rfl⟩ := List.mem_map.mp hb
      obtain ⟨c, hc, rfl⟩ := List.mem_map.mp hx
      have := (h c hc).2
      simp
      omega
  rw [if_pos rfl, hout, if_neg ?_]
  intro hcon
  have := congrArg String.data hcon
  simp at this
  exact hne this

/-- On messages of 10000 or more code points in `[1,126]` the step budget
runs out and `encrypt_message` falls back to the original message. -/
theorem encrypt_message_fail (bf : ImprovedBrainfuckEngine) (s : String)
    (h : ∀ c ∈ s.data, 1 ≤ c.toNat ∧ c.toNat ≤ 126) (hlen : 10000 ≤ s.data.length) :
    (encrypt_message bf s).2 = s := by
  have hbs_ne : s.data.map Char.toNat ≠ [] := by
    intro hcon
    simp at hcon
    rw [hcon] at hlen
    simp at hlen
  have hbs_rng : ∀ b ∈ s.data.map Char.toNat, 1 ≤ b ∧ b ≤ 126 := by
    intro b hb
    obtain ⟨c, hc, rfl⟩ := List.mem_map.mp hb
    exact h c hc
  have hbs_len : (s.data.map Char.toNat).length = s.data.length := by simp
  obtain ⟨mem', hrun⟩ := encRun (s.data.map Char.toNat) hbs_ne hbs_rng
    (5 * (s.data.map Char.toNat).length + 1) (le_refl _)
  have htr := runAux_fuel_trunc encrypt_program.data 50000
    ⟨List.replicate 1000 0, 0, (s.data.map Char.toNat).reverse, []⟩ 0 0
    (5 * (s.data.map Char.toNat).length + 1) (by omega) (by rw [hrun]; omega)
  obtain ⟨s0, ok, hr⟩ : ∃ s0 ok,
      (bf.reset.load_input s).execute encrypt_program 50000 = (s0, ok) := ⟨_, _, rfl⟩
  have hok : ok = false := by
    have : ((bf.reset.load_input s).execute encrypt_program 50000).2 =
        decide ((runAux encrypt_program.data
          ⟨List.replicate 1000 0, 0, (s.data.map Char.toNat).reverse, []⟩ 0 0 50000).2
            < 50000) := rfl
    rw [hr, htr] at this
    simpa using this
  rw [encrypt_message_eq_of_execute bf s s0 ok hr, hok]
  simp

/-- On messages of 10000 or more code points in `[1,127]` the step budget
runs out and `decrypt_message` falls back to the original message. -/
theorem decrypt_message_fail (bf : ImprovedBrainfuckEngine) (s : String)
    (h : ∀ c ∈ s.data, 1 ≤ c.toNat ∧ c.toNat ≤ 127) (hlen : 10000 ≤ s.data.length) :
    (decrypt_message bf s).2 = s := by
  have hbs_ne : s.data.map Char.toNat ≠ [] := by
    intro hcon
    simp at hcon
    rw [hcon] at hlen
    simp at hlen
  have hbs_rng : ∀ b ∈ s.data.map Char.toNat, 1 ≤ b ∧ b ≤ 127 := by
    intro b hb
    obtain ⟨c, hc, rfl⟩ := List.mem_map.mp hb
    exact h c hc
  have hbs_len : (s.data.map Char.toNat).length = s.data.length := by simp
  obtain ⟨mem', hrun⟩ := decRun (s.data.map Char.toNat) hbs_ne hbs_rng
    (5 * (s.data.map Char.toNat).length + 1) (le_refl _)
  have htr := runAux_fuel_trunc decrypt_program.data 50000
    ⟨List.replicate 1000 0, 0, (s.data.map Char.toNat).reverse, []⟩ 0 0
    (5 * (s.data.map Char.toNat).length + 1) (by omega) (by rw [hrun]; omega)
  obtain ⟨s0, ok, hr⟩ : ∃ s0 ok,
      (bf.reset.load_input s).execute decrypt_program 50000 = (s0, ok) := ⟨_, _, rfl⟩
  have hok : ok = false := by
    have : ((bf.reset.load_input s).execute decrypt_program 50000).2 =
        decide ((runAux decrypt_program.data
          ⟨List.replicate 1000 0, 0, (s.data.map Char.toNat).reverse, []⟩ 0 0 50000).2
            < 50000) := rfl
    rw [hr, htr] at this
    simpa using this
  rw [decrypt_message_eq_of_execute bf s s0 ok hr, hok]
  simp

/-- C1 counterexample: the claim as stated fails.  `"a\x00"` is composed of
code points 97 and 0, both in `[0, 126]`, yet the NUL byte terminates the
`,[+.,]` loop early: encrypting gives `"b"` and decrypting that gives
`"a"`, not `"a\x00"`. -/
theorem claim_C1_counterexample :
    (∀ c ∈ ("a\x00" : String).data, c.toNat ≤ 126) ∧
      (decrypt_message resetState (encrypt_message resetState "a\x00").2).2 = "a" ∧
      ¬ (decrypt_message resetState (encrypt_message resetState "a\x00").2).2 = "a\x00" :=
  ⟨by decide, by decide, by decide⟩

/-- C1 (amended): for every string composed solely of code points in
`[1, 126]` — NUL must be excluded, since a 0 byte ends the transform loop
early — decrypting the encryption returns the original string, whatever
states the two protocol engines are in.  Short strings round-trip through
the Caesar ±1 shift; strings of 10000 or more characters exhaust the
50000-step budget in both directions and fall back to the original
unchanged on both sides. -/
theorem claim_C1 (bf bf' : ImprovedBrainfuckEngine) (s : String)
    (h : ∀ c ∈ s.data, 1 ≤ c.toNat ∧ c.toNat ≤ 126) :
    (decrypt_message bf' (encrypt_message bf s).2).2 = s := by
  by_cases hne : s.data = []
  · have hs : s = "" := by
      cases s with
      | mk d =>
        simp only at hne
        rw [show d = ("" : String).data from hne]
    rw [hs]
    have hrune : runAux encrypt_program.data ⟨List.replicate 1000 0, 0, [], []⟩ 0 0 50000 =
        (⟨(List.replicate 1000 0).set 0 0, 0, [], []⟩, 2) := by decide
    have hexece : (bf.reset.load_input "").execute encrypt_program 50000 =
        (⟨(List.replicate 1000 0).set 0 0, 0, [], []⟩, true) := by
      show ((runAux encrypt_program.data ⟨List.replicate 1000 0, 0, [], []⟩ 0 0 50000).1,
        decide ((runAux encrypt_program.data
          ⟨List.replicate 1000 0, 0, [], []⟩ 0 0 50000).2 < 50000)) = _
      rw [hrune]
      rfl
    rw [encrypt_message_eq_of_execute bf "" _ _ hexece]
    rw [show get_output_string ⟨(List.replicate 1000 0).set 0 0, 0, [], []⟩ = "" from rfl]
    rw [if_pos rfl, if_pos rfl]
    have hrund : runAux decrypt_program.data ⟨List.replicate 1000 0, 0, [], []⟩ 0 0 50000 =
        (⟨(List.replicate 1000 0).set 0 0, 0, [], []⟩, 2) := by decide
    have hexecd : (bf'.reset.load_input "").execute decrypt_program 50000 =
        (⟨(List.replicate 1000 0).set 0 0, 0, [], []⟩, true) := by
      show ((runAux decrypt_program.data ⟨List.replicate 1000 0, 0, [], []⟩ 0 0 50000).1,
        decide ((runAux decrypt_program.data
          ⟨List.replicate 1000 0, 0, [], []⟩ 0 0 50000).2 < 50000)) = _
      rw [hrund]
      rfl
    rw [decrypt_message_eq_of_execute bf' "" _ _ hexecd]
    rw [show get_output_string ⟨(List.replicate 1000 0).set 0 0, 0, [], []⟩ = "" from rfl]
    rw [if_pos rfl, if_pos rfl]
  · by_cases hlen : s.data.length ≤ 9999
    · rw [encrypt_message_of_bytes bf s h hne hlen]
      have ht_rng : ∀ c ∈ (String.mk (s.data.map fun ch => Char.ofNat (ch.toNat + 1))).data,
          1 ≤ c.toNat ∧ c.toNat ≤ 127 := by
        intro c hc
        have hd : (String.mk (s.data.map fun ch => Char.ofNat (ch.toNat + 1))).data =
            s.data.map fun ch => Char.ofNat (ch.toNat + 1) := rfl
        rw [hd] at hc
        obtain ⟨ch, hch, rfl⟩ := List.mem_map.mp hc
        rw [toNat_ofNat_of_le _ (by have := (h ch hch).2; omega)]
        have := h ch hch
        omega
      have ht_ne : (String.mk (s.data.map fun ch => Char.ofNat (ch.toNat + 1))).data ≠ [] := by
        show s.data.map _ ≠ []
        simpa using hne
      have ht_len :
          (String.mk (s.data.map fun ch => Char.ofNat (ch.toNat + 1))).data.length ≤ 9999 := by
        show (s.data.map _).length ≤ 9999
        simpa using hlen
      rw [decrypt_message_of_bytes bf' _ ht_rng ht_ne ht_len]
      show String.mk ((s.data.map fun ch => Char.ofNat (ch.toNat + 1)).map
        fun ch => Char.ofNat (ch.toNat - 1)) = s
      rw [List.map_map]
      have hid : ∀ ch ∈ s.data,
          ((fun ch' => Char.ofNat (ch'.toNat - 1)) ∘ fun ch' => Char.ofNat (ch'.toNat + 1)) ch
            = ch := by
        intro ch hch
        show Char.ofNat ((Char.ofNat (ch.toNat + 1)).toNat - 1) = ch
        rw [toNat_ofNat_of_le _ (by have := (h ch hch).2; omega), Nat.add_sub_cancel,
          Char.ofNat_toNat]
      rw [List.map_congr_left hid]
      show String.mk (s.data.map id) = s
      rw [List.map_id]
    · push_neg at hlen
      rw [encrypt_message_fail bf s h (by omega)]
      exact decrypt_message_fail bf' s
        (fun c hc => ⟨(h c hc).1, by have := (h c hc).2; omega⟩) (by omega)

/-- Witness for C1 at the concrete message `"hi"`. -/
theorem claim_C1_witness :
    (decrypt_message resetState (encrypt_message resetState "hi").2).2 = "hi" :=
  claim_C1 resetState resetState "hi" (by decide)

theorem regRun_disc_locked (sendOk : Nat → Bool) (fuel : Nat) (st : Registry)
    (cid : String) :
    regRun sendOk (fuel + 1) true (.disc st cid) = .deadlock st [] := by
  simp [regRun]

theorem regRun_bcast_locked (sendOk : Nat → Bool) (fuel : Nat) (st : Registry) (msg : String)
    (excl : Option String) :
    regRun sendOk (fuel + 1) true (.bcast st msg excl) = .deadlock st [] := by
  simp [regRun]

theorem regRun_disc_free_none (sendOk : Nat → Bool) (fuel : Nat) (st : Registry)
    (cid : String) (hl : lookupClient st cid = none) :
    regRun sendOk (fuel + 1) false (.disc st cid) = .ok st [] := by
  simp [regRun, hl]

/-- A `disconnect_client` that finds its entry — entered with the lock
free — closes the handle and deletes the entry, then self-deadlocks when
the departure broadcast of line 333 re-acquires the lock the call already
holds: the call never returns and no departure notice is ever sent. -/
theorem regRun_disc_free_some (sendOk : Nat → Bool) (fuel : Nat) (st : Registry)
    (cid : String) (info : ClientInfo) (hl : lookupClient st cid = some info) :
    regRun sendOk (fuel + 1 + 1) false (.disc st cid) =
      .deadlock (st.eraseP fun p => decide (p.1 = cid)) [Effect.closeSock info.sock] := by
  simp [regRun, hl]

/-- C9 (code bug): the registry logic matches the claim — an absent id is
a no-op, and the present-id branch marks inactive, closes once and
deletes the entry — but `disconnect_client` runs its departure broadcast
while still holding the non-reentrant `threading.Lock` it acquired at
line 318, and `broadcast_system_message` re-acquires that same lock at
line 288.  So on a present identifier the call closes the handle and
removes the entry, then blocks forever: no departure announcement is ever
emitted, the lock is never released, and any later call blocks at its own
lock acquisition instead of observing absence and returning. -/
theorem claim_C9 (sendOk : Nat → Bool) (clients : Registry) (client_id : String) :
    (lookupClient clients client_id = none →
      disconnect_client sendOk false clients client_id = .ok clients []) ∧
    (∀ info : ClientInfo, lookupClient clients client_id = some info →
      disconnect_client sendOk false clients client_id =
        .deadlock (clients.eraseP fun p => decide (p.1 = client_id))
          [Effect.closeSock info.sock]) ∧
    disconnect_client sendOk true clients client_id = .deadlock clients [] := by
  refine ⟨fun hl => ?_, fun info hl => ?_, ?_⟩
  · exact regRun_disc_free_none sendOk (clients.length + 2) clients client_id hl
  · exact regRun_disc_free_some sendOk (clients.length + 1) clients client_id info hl
  · exact regRun_disc_locked sendOk (clients.length + 2) clients client_id

/-- Witness for C9 on a concrete two-client registry: the absent id
returns with the registry untouched and no effects; the present id ends
in the self-deadlock having closed handle 5 and sent nothing; with the
lock held, any call blocks immediately with no effects. -/
theorem claim_C9_witness :
    (disconnect_client (fun _ => true) false
        [("Client_1", ⟨5, "a", 0, true⟩), ("Client_2", ⟨7, "b", 0, true⟩)] "Client_3" =
      .ok [("Client_1", ⟨5, "a", 0, true⟩), ("Client_2", ⟨7, "b", 0, true⟩)] []) ∧
    (disconnect_client (fun _ => true) false
        [("Client_1", ⟨5, "a", 0, true⟩), ("Client_2", ⟨7, "b", 0, true⟩)] "Client_1" =
      .deadlock
        (([("Client_1", ⟨5, "a", 0, true⟩), ("Client_2", ⟨7, "b", 0, true⟩)] : Registry).eraseP
          fun p => decide (p.1 = "Client_1"))
        [Effect.closeSock 5]) ∧
    disconnect_client (fun _ => true) true
        [("Client_1", ⟨5, "a", 0, true⟩), ("Client_2", ⟨7, "b", 0, true⟩)] "Client_1" =
      .deadlock [("Client_1", ⟨5, "a", 0, true⟩), ("Client_2", ⟨7, "b", 0, true⟩)] [] :=
  ⟨(claim_C9 (fun _ => true)
      [("Client_1", ⟨5, "a", 0, true⟩), ("Client_2", ⟨7, "b", 0, true⟩)] "Client_3").1
      (by decide),
    (claim_C9 (fun _ => true)
      [("Client_1", ⟨5, "a", 0, true⟩), ("Client_2", ⟨7, "b", 0, true⟩)] "Client_1").2.1
      ⟨5, "a", 0, true⟩ (by decide),
    (claim_C9 (fun _ => true)
      [("Client_1", ⟨5, "a", 0, true⟩), ("Client_2", ⟨7, "b", 0, true⟩)] "Client_1").2.2⟩


/-- C2 counterexample: the claim asserts `execute("+[+]", max_steps)` fails
for every step budget, but at budget 5000 it succeeds (the cell wraps to 0
modulo 256 and the loop exits after 766 steps). -/
theorem claim_C2_counterexample : (resetState.execute "+[+]" 5000).2 = true := by decide

/-- C2 (amended): `"+[+]"` is not an infinite loop — `+` is modulo 256, so
the cell returns to 0 after 255 increments and the program halts after
exactly 766 steps.  `execute("+[+]", max_steps)` therefore returns failure
exactly when `max_steps ≤ 766` and success for every larger budget. -/
theorem claim_C2 (max_steps : Nat) :
    (resetState.execute "+[+]" max_steps).2 = decide (766 < max_steps) := by
  by_cases h : 766 < max_steps
  · have h767 : (runAux "+[+]".data resetState 0 0 767).2 = 766 := by decide
    have hext := runAux_fuel_ext "+[+]".data 767 resetState 0 0 max_steps
      (by rw [h767]; omega) (by omega)
    show decide ((runAux "+[+]".data resetState 0 0 max_steps).2 < max_steps) = _
    rw [hext, h767]
  · have h766 : (runAux "+[+]".data resetState 0 0 766).2 = 0 + 766 := by decide
    have htr := runAux_fuel_trunc "+[+]".data max_steps resetState 0 0 766 (by omega) h766
    show decide ((runAux "+[+]".data resetState 0 0 max_steps).2 < max_steps) = _
    rw [htr]
    simp [h]

/-- The budgeted loop is the reference trajectory cut off at the budget:
its final state is `iterCmd` at the fuel, its final step counter is the
number of non-halted iterations within the fuel. -/
theorem runAux_eq_iterCmd (code : List Char) :
    ∀ (fuel : Nat) (st : ImprovedBrainfuckEngine) (ip steps : Nat),
      runAux code st ip steps fuel =
        ((iterCmd code fuel (st, ip)).1, steps + nUsed code fuel (st, ip)) := by
  intro fuel
  induction fuel with
  | zero => intro st ip steps; simp [runAux_zero, iterCmd, nUsed]
  | succ fuel ih =>
    intro st ip steps
    by_cases hip : ip < code.length
    · rw [runAux_succ code st ip steps fuel hip]
      rw [ih (execCmd code st ip).1 ((execCmd code st ip).2 + 1).toNat (steps + 1)]
      simp only [iterCmd, nUsed, hip, if_pos, stepConfig]
      congr 1
      omega
    · rw [runAux_halt code st ip steps _ hip]
      simp [iterCmd, nUsed, hip]

theorem nUsed_le (code : List Char) :
    ∀ (fuel : Nat) (c : ImprovedBrainfuckEngine × Nat), nUsed code fuel c ≤ fuel := by
  intro fuel
  induction fuel with
  | zero => intro c; simp [nUsed]
  | succ fuel ih =>
    intro c
    by_cases hip : c.2 < code.length
    · simp only [nUsed, hip, if_pos]
      exact Nat.succ_le_succ (ih _)
    · simp [nUsed, hip]

/-- The budget is undershot exactly when the reference trajectory has run
the cursor past the end of the program strictly within the budget. -/
theorem nUsed_lt_iff (code : List Char) :
    ∀ (fuel : Nat) (c : ImprovedBrainfuckEngine × Nat),
      nUsed code fuel c < fuel ↔
        ∃ k, k < fuel ∧ ¬ (iterCmd code k c).2 < code.length := by
  intro fuel
  induction fuel with
  | zero => intro c; simp [nUsed]
  | succ fuel ih =>
    intro c
    by_cases hip : c.2 < code.length
    · simp only [nUsed, hip, if_pos]
      rw [Nat.succ_lt_succ_iff, ih (stepConfig code c)]
      constructor
      · rintro ⟨k, hk, hh⟩
        exact ⟨k + 1, by omega, by simpa [iterCmd, hip] using hh⟩
      · rintro ⟨k, hk, hh⟩
        match k with
        | 0 => exact absurd hip (by simpa [iterCmd] using hh)
        | k + 1 => exact ⟨k, by omega, by simpa [iterCmd, hip] using hh⟩
    · simp only [nUsed, hip, if_neg, not_false_iff]
      exact ⟨fun _ => ⟨0, by omega, by simpa [iterCmd] using hip⟩, fun _ => by omega⟩

/-- C4: `execute` returns success exactly when the instruction cursor runs
past the end of the program strictly before `max_steps` instructions have
executed, and failure exactly when the step budget is exhausted first — in
particular a run whose last instruction executes as the `max_steps`-th step
is a failure, since the success test demands strictly fewer steps. -/
theorem claim_C4 (code : String) (st : ImprovedBrainfuckEngine) (max_steps : Nat) :
    (st.execute code max_steps).2 = true ↔
      ∃ k, k < max_steps ∧
        code.data.length ≤ (iterCmd code.data k ({ st with output_buffer := [] }, 0)).2 := by
  show decide ((runAux code.data { st with output_buffer := [] } 0 0 max_steps).2 < max_steps)
      = true ↔ _
  rw [runAux_eq_iterCmd code.data max_steps { st with output_buffer := [] } 0 0]
  simp only [decide_eq_true_eq, Nat.zero_add]
  rw [nUsed_lt_iff]
  simp [Nat.not_lt]

/-- The forward scan advances at most one position per fuel unit. -/
theorem scanFwdAux_le (code : List Char) :
    ∀ (fuel ip bc : Nat), scanFwdAux code ip bc fuel ≤ ip + fuel := by
  intro fuel
  induction fuel with
  | zero => intro ip bc; simp [scanFwdAux]
  | succ fuel ih =>
    intro ip bc
    by_cases hbc : 0 < bc
    · simp only [scanFwdAux, hbc, if_pos]
      exact le_trans (ih _ _) (by omega)
    · simp only [scanFwdAux, hbc, if_neg, not_false_iff]
      omega

/-- The backward scan retreats at most one position per fuel unit and never
advances. -/
theorem scanBackAux_bounds (code : List Char) :
    ∀ (fuel : Nat) (ip : Int) (bc : Nat),
      ip - fuel ≤ scanBackAux code ip bc fuel ∧ scanBackAux code ip bc fuel ≤ ip := by
  intro fuel
  induction fuel with
  | zero => intro ip bc; simp [scanBackAux]
  | succ fuel ih =>
    intro ip bc
    by_cases hbc : 0 < bc
    · simp only [scanBackAux, hbc, if_pos]
      have := ih (ip - 1) (if code.getD ip.toNat ' ' = ']' then bc + 1
        else if code.getD ip.toNat ' ' = '[' then bc - 1 else bc)
      push_cast
      constructor <;> [exact le_trans (by push_cast at this ⊢; omega) this.1;
        exact le_trans this.2 (by omega)]
    · simp only [scanBackAux, hbc, if_neg, not_false_iff]
      omega

/-- C3: `execute` is total.  The forward bracket scan is bounded by the
program length (a missing `]` makes it stop at the boundary), the backward
scan is bounded below by position `-1` (a missing `[` makes it stop just
before position 0), and the main loop performs at most `max_steps`
iterations of work — its final step counter never exceeds the budget. -/
theorem claim_C3 :
    (∀ (code : List Char) (ip bc : Nat), ip ≤ code.length →
        scanForward code ip bc ≤ code.length) ∧
    (∀ (code : List Char) (ip : Int) (bc : Nat), -1 ≤ ip →
        -1 ≤ scanBackward code ip bc) ∧
    (∀ (code : String) (st : ImprovedBrainfuckEngine) (max_steps : Nat),
        (runAux code.data st 0 0 max_steps).2 ≤ max_steps) := by
  refine ⟨fun code ip bc hip => ?_, fun code ip bc hip => ?_, fun code st max_steps => ?_⟩
  · exact le_trans (scanFwdAux_le code _ ip bc) (by omega)
  · unfold scanBackward
    have h := (scanBackAux_bounds code (ip + 1).toNat ip bc).1
    have : ((ip + 1).toNat : Int) = ip + 1 := Int.toNat_of_nonneg (by omega)
    omega
  · rw [runAux_eq_iterCmd]
    simpa using nUsed_le code.data max_steps _

/-- Witness for C3 at concrete inputs. -/
theorem claim_C3_witness :
    scanForward "+[-]".data 2 1 ≤ "+[-]".data.length ∧
      (-1 : Int) ≤ scanBackward "]".data (-1) 1 ∧
      (runAux "+[-]".data resetState 0 0 100).2 ≤ 100 :=
  ⟨claim_C3.1 "+[-]".data 2 1 (by decide), claim_C3.2.1 "]".data (-1) 1 (by decide),
    claim_C3.2.2 "+[-]" resetState 100⟩

/-- If no matching `]` exists ahead, the forward scan consumes all its fuel
(walks to the end of the program). -/
theorem findMatchAux_none_scan (code : List Char) :
    ∀ (fuel ip bc : Nat), 0 < bc → findMatchAux code ip bc fuel = none →
      scanFwdAux code ip bc fuel = ip + fuel := by
  intro fuel
  induction fuel with
  | zero => intro ip bc _ _; simp [scanFwdAux]
  | succ fuel ih =>
    intro ip bc hbc hnone
    rw [findMatchAux] at hnone
    by_cases h1 : code.getD ip ' ' = ']'
    · by_cases h2 : bc = 1
      · rw [if_pos h1, if_pos h2] at hnone
        exact absurd hnone (by simp)
      · rw [if_pos h1, if_neg h2] at hnone
        have hstep : scanFwdAux code ip bc (fuel + 1) =
            scanFwdAux code (ip + 1) (bc - 1) fuel := by
          have h1n := h1; simp at h1n
          simp +decide [scanFwdAux, hbc, h1n]
        rw [hstep, ih (ip + 1) (bc - 1) (by omega) hnone]
        omega
    · rw [if_neg h1] at hnone
      by_cases h2 : code.getD ip ' ' = '['
      · rw [if_pos h2] at hnone
        have hstep : scanFwdAux code ip bc (fuel + 1) =
            scanFwdAux code (ip + 1) (bc + 1) fuel := by
          have h2n := h2; simp at h2n
          simp +decide [scanFwdAux, hbc, h2n]
        rw [hstep, ih (ip + 1) (bc + 1) (by omega) hnone]
        omega
      · rw [if_neg h2] at hnone
        have hstep : scanFwdAux code ip bc (fuel + 1) =
            scanFwdAux code (ip + 1) bc fuel := by
          have h1n := h1; simp at h1n
          have h2n := h2; simp at h2n
          simp [scanFwdAux, hbc, h1n, h2n]
        rw [hstep, ih (ip + 1) bc hbc hnone]
        omega

/-- An unmatched open bracket makes the forward scan stop exactly at the end
of the program. -/
theorem scanForward_of_no_match (code : List Char) (ip bc : Nat) (hbc : 0 < bc)
    (hip : ip ≤ code.length) (h : findMatch code ip bc = none) :
    scanForward code ip bc = code.length := by
  unfold scanForward
  unfold findMatch at h
  rw [findMatchAux_none_scan code (code.length - ip) ip bc hbc h]
  omega

/-- Executing a `[` whose current cell is 0 and whose matching `]` does not
exist jumps the cursor to the very end of the program, and the run halts
right there with one more step on the counter — silently, never as a
failure of its own. -/
theorem runAux_unmatched_bracket (code : String) (st : ImprovedBrainfuckEngine)
    (ip steps fuel : Nat) (hip : ip < code.data.length)
    (hch : code.data.getD ip ' ' = '[') (hcell : st.memory.getD st.pointer 0 = 0)
    (hnm : findMatch code.data (ip + 1) 1 = none) :
    runAux code.data st ip steps (fuel + 1) = (st, steps + 1) := by
  rw [runAux_succ code.data st ip steps fuel hip]
  have hexec : execCmd code.data st ip =
      (st, (scanForward code.data (ip + 1) 1 : Int) - 1) := by
    have hchn := hch; simp at hchn
    have hcelln := hcell; simp at hcelln
    simp +decide [execCmd, hchn, hcelln]
  rw [hexec]
  have hscan : scanForward code.data (ip + 1) 1 = code.data.length :=
    scanForward_of_no_match code.data (ip + 1) 1 (by omega) (by omega) hnm
  have htn : (((scanForward code.data (ip + 1) 1 : Int) - 1) + 1).toNat =
      code.data.length := by rw [hscan]; omega
  rw [htn]
  exact runAux_halt code.data st code.data.length (steps + 1) fuel (by omega)

/-- C10: when a `[` executed with current cell 0 has no matching `]`, the
forward scan stops at the end of the program, the instruction cursor moves
past the program's end, and (budget permitting) `execute` returns success:
an unmatched bracket is treated as a jump to end-of-program, not an error.
For the one-instruction program `"["`, `execute` succeeds whenever
`max_steps ≥ 2`. -/
theorem claim_C10 :
    (∀ (code : List Char) (ip bc : Nat), 0 < bc → ip ≤ code.length →
        findMatch code ip bc = none → scanForward code ip bc = code.length) ∧
    (∀ (code : String) (st : ImprovedBrainfuckEngine) (ip steps fuel : Nat),
        ip < code.data.length → code.data.getD ip ' ' = '[' →
        st.memory.getD st.pointer 0 = 0 → findMatch code.data (ip + 1) 1 = none →
        runAux code.data st ip steps (fuel + 1) = (st, steps + 1)) ∧
    (∀ max_steps : Nat, 2 ≤ max_steps → (resetState.execute "[" max_steps).2 = true) := by
  refine ⟨fun code ip bc hbc hip h => scanForward_of_no_match code ip bc hbc hip h,
    fun code st ip steps fuel hip hch hcell hnm =>
      runAux_unmatched_bracket code st ip steps fuel hip hch hcell hnm,
    fun max_steps hm => ?_⟩
  obtain ⟨f, rfl⟩ : ∃ f, max_steps = f + 2 := ⟨max_steps - 2, by omega⟩
  show decide ((runAux "[".data resetState 0 0 (f + 2)).2 < f + 2) = true
  have := runAux_unmatched_bracket "[" resetState 0 0 (f + 1) (by decide) (by decide)
    (by decide) (by decide)
  rw [this]
  simp

/-- Witness for C10 at the one-instruction program `"["`. -/
theorem claim_C10_witness :
    scanForward "[".data 1 1 = "[".data.length ∧
      runAux "[".data resetState 0 0 (0 + 1) = (resetState, 0 + 1) ∧
      (resetState.execute "[" 5000).2 = true :=
  ⟨claim_C10.1 "[".data 1 1 (by decide) (by decide) (by decide),
    claim_C10.2.1 "[" resetState 0 0 0 (by decide) (by decide) (by decide) (by decide),
    claim_C10.2.2 5000 (by decide)⟩

/-- C6: `validate_message` is true exactly for texts of length 1 to 1000 all
of whose code points lie in `[32, 126]`; in particular it is false at
length 0, at length 1001, and in the presence of a code point 31 or 127. -/
theorem claim_C6 :
    (∀ message : String, validate_message message = true ↔
        1 ≤ message.length ∧ message.length ≤ 1000 ∧
          ∀ c ∈ message.data, 32 ≤ c.toNat ∧ c.toNat ≤ 126) ∧
    validate_message "" = false ∧
    validate_message (String.mk (List.replicate 1001 'a')) = false ∧
    (∀ message : String, (∃ c ∈ message.data, c.toNat = 31) →
        validate_message message = false) ∧
    (∀ message : String, (∃ c ∈ message.data, c.toNat = 127) →
        validate_message message = false) := by
  have key : ∀ message : String, validate_message message = true ↔
      1 ≤ message.length ∧ message.length ≤ 1000 ∧
        ∀ c ∈ message.data, 32 ≤ c.toNat ∧ c.toNat ≤ 126 := by
    intro message
    have hlen : message.length = message.data.length := rfl
    unfold validate_message
    by_cases h : message.data = [] ∨ message.length > 1000
    · rw [if_pos h]
      refine iff_of_false (by simp) ?_
      rintro ⟨h1, h2, -⟩
      rcases h with h | h
      · rw [hlen, h] at h1; simp at h1
      · omega
    · rw [if_neg h]
      push_neg at h
      obtain ⟨hne, hle⟩ := h
      have h1 : 1 ≤ message.length := by
        rw [hlen]
        cases hd : message.data with
        | nil => exact absurd hd hne
        | cons a l => simp
      simp only [List.all_eq_true, h1, hle, true_and]
      constructor
      · intro hall c hc
        have := hall c hc
        simp at this
        omega
      · intro hall c hc
        have := hall c hc
        simp
        omega
  refine ⟨key, by decide, by decide, fun message ⟨c, hc, h31⟩ => ?_, fun message ⟨c, hc, h127⟩ => ?_⟩
  · by_contra hv
    have := ((key message).mp (by revert hv; cases validate_message message <;> simp)).2.2 c hc
    omega
  · by_contra hv
    have := ((key message).mp (by revert hv; cases validate_message message <;> simp)).2.2 c hc
    omega

/-- Witness for C6. -/
theorem claim_C6_witness :
    (validate_message "hi" = true) ∧ validate_message "h\x1fi" = false ∧
      validate_message "h\x7fi" = false :=
  ⟨(claim_C6.1 "hi").mpr ⟨by decide, by decide, by decide⟩,
    claim_C6.2.2.2.1 "h\x1fi" ⟨'\x1f', by decide, by decide⟩,
    claim_C6.2.2.2.2 "h\x7fi" ⟨'\x7f', by decide, by decide⟩⟩

/-- C5: every execution reachable through the public operations starts from
a fresh machine: `reset` is called first, so the state handed to `execute`
has an all-zero tape, cursor 0 and an empty output queue, with the input
queue holding exactly this call's payload — and consequently the result of
`encrypt_message`, `decrypt_message` and `handle_command` is independent of
whatever state the shared engine was left in. -/
theorem claim_C5 (bf bf' : ImprovedBrainfuckEngine) (message : String) (clients : Registry)
    (now client_id command : String) :
    ((bf.reset.load_input message).memory = List.replicate 1000 0 ∧
      (bf.reset.load_input message).pointer = 0 ∧
      (bf.reset.load_input message).output_buffer = [] ∧
      (bf.reset.load_input message).input_buffer = (message.data.map Char.toNat).reverse) ∧
    encrypt_message bf message = encrypt_message bf' message ∧
    decrypt_message bf message = decrypt_message bf' message ∧
    (handle_command bf clients now client_id command).2 =
      (handle_command bf' clients now client_id command).2 := by
  refine ⟨⟨rfl, rfl, rfl, rfl⟩, rfl, rfl, ?_⟩
  unfold handle_command
  split_ifs <;> rfl

/-- C7: `encrypt_message` and `decrypt_message` are total and never drop a
message outright: when the engine run fails or the filtered output is empty
they return the original input unchanged, otherwise they return the
(non-empty) transformed output; a non-empty input never produces an empty
result. -/
theorem claim_C7 (bf : ImprovedBrainfuckEngine) (message : String) :
    (((bf.reset.load_input message).execute encrypt_program 50000).2 = false ∨
        get_output_string ((bf.reset.load_input message).execute encrypt_program 50000).1 = "" →
      (encrypt_message bf message).2 = message) ∧
    (((bf.reset.load_input message).execute encrypt_program 50000).2 = true →
      get_output_string ((bf.reset.load_input message).execute encrypt_program 50000).1 ≠ "" →
      (encrypt_message bf message).2 =
        get_output_string ((bf.reset.load_input message).execute encrypt_program 50000).1) ∧
    (message ≠ "" → (encrypt_message bf message).2 ≠ "") ∧
    (((bf.reset.load_input message).execute decrypt_program 50000).2 = false ∨
        get_output_string ((bf.reset.load_input message).execute decrypt_program 50000).1 = "" →
      (decrypt_message bf message).2 = message) ∧
    (((bf.reset.load_input message).execute decrypt_program 50000).2 = true →
      get_output_string ((bf.reset.load_input message).execute decrypt_program 50000).1 ≠ "" →
      (decrypt_message bf message).2 =
        get_output_string ((bf.reset.load_input message).execute decrypt_program 50000).1) ∧
    (message ≠ "" → (decrypt_message bf message).2 ≠ "") := by
  have enc : ∀ h1 : Bool, ∀ s0 : ImprovedBrainfuckEngine,
      (bf.reset.load_input message).execute encrypt_program 50000 = (s0, h1) →
      (encrypt_message bf message).2 =
        if h1 then (if get_output_string s0 = "" then message else get_output_string s0)
        else message := by
    intro h1 s0 hr
    unfold encrypt_message
    rw [hr]
    cases h1 <;> simp
  have dec : ∀ h1 : Bool, ∀ s0 : ImprovedBrainfuckEngine,
      (bf.reset.load_input message).execute decrypt_program 50000 = (s0, h1) →
      (decrypt_message bf message).2 =
        if h1 then (if get_output_string s0 = "" then message else get_output_string s0)
        else message := by
    intro h1 s0 hr
    unfold decrypt_message
    rw [hr]
    cases h1 <;> simp
  obtain ⟨se, be, hre⟩ : ∃ s b, (bf.reset.load_input message).execute encrypt_program 50000 = (s, b) :=
    ⟨_, _, rfl⟩
  obtain ⟨sd, bd, hrd⟩ : ∃ s b, (bf.reset.load_input message).execute decrypt_program 50000 = (s, b) :=
    ⟨_, _, rfl⟩
  have he := enc be se hre
  have hd := dec bd sd hrd
  rw [hre, hrd]
  refine ⟨?_, ?_, ?_, ?_, ?_, ?_⟩
  · rintro (hfail | hempty)
    · have hb : be = false := hfail
      rw [he, hb]
      simp
    · have hemp : get_output_string se = "" := hempty
      rw [he]
      cases be <;> simp [hemp]
  · intro hok hne
    have hb : be = true := hok
    have hne' : ¬ get_output_string se = "" := hne
    rw [he, hb]
    simp [hne']
  · intro hmsg
    rw [he]
    cases be with
    | false => simpa using hmsg
    | true =>
      rw [if_pos rfl]
      by_cases h : get_output_string se = ""
      · rw [if_pos h]; exact hmsg
      · rw [if_neg h]; exact h
  · rintro (hfail | hempty)
    · have hb : bd = false := hfail
      rw [hd, hb]
      simp
    · have hemp : get_output_string sd = "" := hempty
      rw [hd]
      cases bd <;> simp [hemp]
  · intro hok hne
    have hb : bd = true := hok
    have hne' : ¬ get_output_string sd = "" := hne
    rw [hd, hb]
    simp [hne']
  · intro hmsg
    rw [hd]
    cases bd with
    | false => simpa using hmsg
    | true =>
      rw [if_pos rfl]
      by_cases h : get_output_string sd = ""
      · rw [if_pos h]; exact hmsg
      · rw [if_neg h]; exact h

/-- Witness for C7: the all-zero payload falls back to itself (its run
produces empty output), a normal payload is transformed, and non-empty
payloads stay non-empty. -/
theorem claim_C7_witness :
    (encrypt_message resetState "\x00").2 = "\x00" ∧
      (encrypt_message resetState "hi").2 =
        get_output_string ((resetState.reset.load_input "hi").execute encrypt_program 50000).1 ∧
      (encrypt_message resetState "hi").2 ≠ "" ∧
      (decrypt_message resetState "\x00").2 = "\x00" ∧
      (decrypt_message resetState "ij").2 =
        get_output_string ((resetState.reset.load_input "ij").execute decrypt_program 50000).1 ∧
      (decrypt_message resetState "ij").2 ≠ "" :=
  ⟨(claim_C7 resetState "\x00").1 (Or.inr (by decide)),
    (claim_C7 resetState "hi").2.1 (by decide) (by decide),
    (claim_C7 resetState "hi").2.2.1 (by decide),
    (claim_C7 resetState "\x00").2.2.2.1 (Or.inr (by decide)),
    (claim_C7 resetState "ij").2.2.2.2.1 (by decide) (by decide),
    (claim_C7 resetState "ij").2.2.2.2.2 (by decide)⟩

/-- C8: `/bf <program>` runs the caller's program against the fixed canned
input `"Hello!"` with step budget exactly 5000 and replies with a single
message to the issuing session only — the produced output on success, a
failure notice otherwise.  `/bf ,[-.,]` replies with the Caesar −1 shift of
`"Hello!"`, the string `"Gdkkn "`. -/
theorem claim_C8 :
    (∀ (bf : ImprovedBrainfuckEngine) (clients : Registry) (now client_id prog : String),
      (handle_command bf clients now client_id ("/bf " ++ prog)).2 =
        [(client_id,
          if ((bf.reset.load_input "Hello!").execute prog 5000).2 then
            "🧠 BF Output: '" ++
              get_output_string ((bf.reset.load_input "Hello!").execute prog 5000).1 ++ "'"
          else "❌ BF Error: Program failed or exceeded step limit")]) ∧
    (∀ (bf : ImprovedBrainfuckEngine) (clients : Registry) (now client_id : String),
      (handle_command bf clients now client_id "/bf ,[-.,]").2 =
        [(client_id, "🧠 BF Output: 'Gdkkn '")]) := by
  have hgen : ∀ (bf : ImprovedBrainfuckEngine) (clients : Registry) (now client_id prog : String),
      (handle_command bf clients now client_id ("/bf " ++ prog)).2 =
        [(client_id,
          if ((bf.reset.load_input "Hello!").execute prog 5000).2 then
            "🧠 BF Output: '" ++
              get_output_string ((bf.reset.load_input "Hello!").execute prog 5000).1 ++ "'"
          else "❌ BF Error: Program failed or exceeded step limit")] := by
    intro bf clients now client_id prog
    have hne1 : ¬ ("/bf " ++ prog = "/users") := by
      intro h
      have hdata : "/bf ".data ++ prog.data = "/users".data := by
        rw [← String.data_append, h]
      rw [show "/bf ".data = ['/', 'b', 'f', ' '] from rfl,
        show "/users".data = ['/', 'u', 's', 'e', 'r', 's'] from rfl] at hdata
      simp only [List.cons_append, List.cons.injEq] at hdata
      exact absurd hdata.2.1 (by decide)
    have hne2 : ¬ ("/bf " ++ prog = "/time") := by
      intro h
      have hdata : "/bf ".data ++ prog.data = "/time".data := by
        rw [← String.data_append, h]
      rw [show "/bf ".data = ['/', 'b', 'f', ' '] from rfl,
        show "/time".data = ['/', 't', 'i', 'm', 'e'] from rfl] at hdata
      simp only [List.cons_append, List.cons.injEq] at hdata
      exact absurd hdata.2.1 (by decide)
    have hpre : "/bf ".data.isPrefixOf ("/bf " ++ prog).data = true := by
      rw [String.data_append, show "/bf ".data = ['/', 'b', 'f', ' '] from rfl]
      simp +decide [List.isPrefixOf, List.cons_append]
    have hdrop : ("/bf " ++ prog).data.drop 4 = prog.data := by
      rw [String.data_append, show "/bf ".data = ['/', 'b', 'f', ' '] from rfl]
      rfl
    unfold handle_command
    rw [if_neg hne1, if_neg hne2, if_pos hpre, hdrop]
  refine ⟨hgen, fun bf clients now client_id => ?_⟩
  have e : ("/bf " ++ ",[-.,]" : String) = "/bf ,[-.,]" := by decide
  rw [← e, hgen bf clients now client_id ",[-.,]"]
  have hex : (bf.reset.load_input "Hello!").execute ",[-.,]" 5000 =
      (resetState.load_input "Hello!").execute ",[-.,]" 5000 := rfl
  rw [hex]
  have hval : (if ((resetState.load_input "Hello!").execute ",[-.,]" 5000).2 then
      "🧠 BF Output: '" ++
        get_output_string ((resetState.load_input "Hello!").execute ",[-.,]" 5000).1 ++ "'"
      else "❌ BF Error: Program failed or exceeded step limit") =
      "🧠 BF Output: 'Gdkkn '" := by decide
  rw [hval]
